import Mathlib



/-!
Verification development for the `couchbase/logstats` repository.

The embedding below models, faithfully to the Go source:
- the snapshot data model (`map[string]interface{}` restricted to the value
  kinds the library distinguishes: int64, uint64, bool, string, nested map,
  and anything else, modelled as an explicit tagged variant);
- the dedup engine (`populateFilteredMap` and the four `equal*` helpers from
  `logstats/util.go`);
- the deduplicating writer (`dedupeLogStats.Write` from `logstats/logstats.go`);
- the plain writer's rotation/append path (`logStats.Write`);
- the rotation rename cascade (`rotate` from `logstats/util.go`), modelled on
  the set of existing segment indices;
- the reconstruction line decoder and fill-forward merge
  (`extractStatsFromLine`, `getStatNameFromSource`, `isValidStatLine`,
  `ReconstructStatLine` from `logstats/reconstruct.go`).

Go maps are modelled as association lists (`List (String × α)`); map
equality is always stated pointwise through `lookupA`, since Go map
iteration order is unspecified.
-/

namespace Logstats

/-- A snapshot value: the kinds of `interface{}` values the library's dedup
engine distinguishes.  `vother` stands for any value of a type the engine
does not support (for example the library's custom `Timestamp`); the engine
always treats such values as changed. -/
inductive Value where
  | vint : Int → Value
  | vuint : Nat → Value
  | vbool : Bool → Value
  | vstr : String → Value
  | vmap : List (String × Value) → Value
  | vother : Nat → Value

/-- A stat snapshot: Go's `map[string]interface{}`, as an association list. -/
abbrev Snapshot := List (String × Value)

/-- First-match association-list lookup; models Go map indexing
(`m[k]`, with the convention that keys are unique). -/
def lookupA {β : Type} : List (String × β) → String → Option β
  | [], _ => none
  | (k, v) :: rest, key => if k = key then some v else lookupA rest key

/-- Association-list update; models Go map assignment `m[k] = v`. -/
def updateAssoc {β : Type} : List (String × β) → String → β → List (String × β)
  | [], k, v => [(k, v)]
  | (k0, v0) :: rest, k, v =>
      if k0 = k then (k, v) :: rest else (k0, v0) :: updateAssoc rest k v

/-- `equalInt64` from `logstats/util.go`: true iff both values are int64 and
equal. -/
def equalInt64 : Value → Value → Bool
  | Value.vint a, Value.vint b => a == b
  | _, _ => false

/-- `equalUint64` from `logstats/util.go`. -/
def equalUint64 : Value → Value → Bool
  | Value.vuint a, Value.vuint b => a == b
  | _, _ => false

/-- `equalBool` from `logstats/util.go`. -/
def equalBool : Value → Value → Bool
  | Value.vbool a, Value.vbool b => a == b
  | _, _ => false

/-- `equalStrings` from `logstats/util.go`. -/
def equalStrings : Value → Value → Bool
  | Value.vstr a, Value.vstr b => a == b
  | _, _ => false

/-- `populateFilteredMap` from `logstats/util.go` (lines 219-263): computes
the dedup delta of `currMap` against `prevMap`.  The Go function fills an
output map passed by reference while ranging over `currMap`; here the output
is returned, iterating `currMap` in list order. -/
def populateFilteredMap (prevMap : Snapshot) : Snapshot → Snapshot
  | [] => []
  | (k, v) :: rest =>
    match lookupA prevMap k with
    | none => (k, v) :: populateFilteredMap prevMap rest
    | some prev =>
      if equalInt64 v prev || equalBool v prev || equalUint64 v prev ||
          equalStrings v prev then
        populateFilteredMap prevMap rest
      else
        match v, prev with
        | Value.vmap currM, Value.vmap prevM =>
          if (populateFilteredMap prevM currM).isEmpty then
            populateFilteredMap prevMap rest
          else
            (k, Value.vmap (populateFilteredMap prevM currM)) ::
              populateFilteredMap prevMap rest
        | _, _ => (k, v) :: populateFilteredMap prevMap rest
termination_by m => sizeOf m
decreasing_by all_goals simp_wf <;> omega

/-- A value the dedup engine treats as a primitive scalar. -/
def isScalar : Value → Bool
  | Value.vint _ => true
  | Value.vuint _ => true
  | Value.vbool _ => true
  | Value.vstr _ => true
  | _ => false

/-- All values of a snapshot are scalars. -/
def allScalar (m : Snapshot) : Bool :=
  m.all fun p => isScalar p.2

/-- The snapshot's keys are pairwise distinct (always true of a Go map). -/
abbrev nodupKeys (m : Snapshot) : Prop :=
  (m.map Prod.fst).Nodup

/-! ### Dedup write / reconstruction round trip (record level) -/

/-- The payload the deduplicating writer computes for one write in the
non-rotating branch of `dedupeLogStats.Write` (logstats.go lines 663-672):
the full snapshot on the first write of a type, the
`populateFilteredMap` delta afterwards. -/
def dedupeDelta (prevStats : List (String × Snapshot)) (t : String) (m : Snapshot) :
    Snapshot :=
  match lookupA prevStats t with
  | none => m
  | some pm => populateFilteredMap pm m

/-- The records emitted by a sequence of `dedupeLogStats.Write` calls during
which `needsRotation` never fires; `prevStatsMap[statType] = statMap` is
performed after each delta computation. -/
def dedupeEmitSeq (prevStats : List (String × Snapshot)) :
    List (String × Snapshot) → List (String × Snapshot)
  | [] => []
  | (t, m) :: rest =>
    (t, dedupeDelta prevStats t m) :: dedupeEmitSeq (updateAssoc prevStats t m) rest

/-- The fill-forward merge of `ReconstructStatLine` (reconstruct.go lines
134-138): every key present in the stored baseline but absent from the
decoded snapshot is copied from the baseline. -/
def fillForwardMerge (prevStatMap statMap : Snapshot) : Snapshot :=
  statMap ++ prevStatMap.filter fun e => (lookupA statMap e.1).isNone

/-- The per-record state transition of `ReconstructStatLine` at the snapshot
level: on an unknown type the decoded snapshot is stored and returned as-is;
on a known type the fill-forward merge is stored and returned. -/
def reconstructMergeStep (km : List (String × Snapshot)) (t : String) (m : Snapshot) :
    List (String × Snapshot) × Snapshot :=
  match lookupA km t with
  | none => (updateAssoc km t m, m)
  | some pm => (updateAssoc km t (fillForwardMerge pm m), fillForwardMerge pm m)

/-- Replaying a list of records through the reconstruction merge. -/
def reconstructSeq (km : List (String × Snapshot)) :
    List (String × Snapshot) → List Snapshot
  | [] => []
  | (t, d) :: rest =>
    (reconstructMergeStep km t d).2 :: reconstructSeq (reconstructMergeStep km t d).1 rest

/-- No key present in one write is absent from the next write of the same
type, relative to a map `d` of the last snapshot written per type. -/
def noRemovalB (d : List (String × Snapshot)) : List (String × Snapshot) → Bool
  | [] => true
  | (t, m) :: rest =>
    (match lookupA d t with
     | none => true
     | some b => b.all fun e => (lookupA m e.1).isSome) &&
    noRemovalB (updateAssoc d t m) rest

/-- Every write has duplicate-free keys and scalar-only values. -/
def goodWritesB (ws : List (String × Snapshot)) : Bool :=
  ws.all fun p => decide (nodupKeys p.2) && allScalar p.2

/-- Invariant tying the writer's `prevStatsMap` to the reconstruction
state: same domain, pointwise-equal baselines, and writer baselines are
well-formed scalar snapshots. -/
def dedupReconInv (d r : List (String × Snapshot)) : Prop :=
  ∀ t : String,
    ((lookupA d t).isSome = true ↔ (lookupA r t).isSome = true) ∧
    (∀ b br, lookupA d t = some b → lookupA r t = some br →
      (∀ k, lookupA br k = lookupA b k) ∧ nodupKeys b ∧ allScalar b = true)

/-! ### Reconstruction line decoder (reconstruct.go) -/

def lbrace : Char := Char.ofNat 123

def rbrace : Char := Char.ofNat 125

def lbrack : Char := Char.ofNat 91

def rbrack : Char := Char.ofNat 93

def lparen : Char := Char.ofNat 40

def rparen : Char := Char.ofNat 41

def spaceChar : Char := Char.ofNat 32

def nulChar : Char := Char.ofNat 0

/-- Outcome of the backward bracket scan `extractStatsFromLine`:
`ok i` models returning index `i`, `malformed` models returning `-1`, and
`panicked` models the Go runtime panic raised by indexing `stack[stackTop]`
when the stack is empty (`stackTop = -1`). -/
inductive ScanResult where
  | panicked : ScanResult
  | malformed : ScanResult
  | ok : Nat → ScanResult
  deriving DecidableEq

/-- The loop body of `extractStatsFromLine` (reconstruct.go lines 28-72),
scanning indices `i, i-1, ..., 1` of `source`.  The stack's head is Go's
`stack[stackTop]`.  On an opening bracket with an empty stack the Go code
reads `stack[-1]` and panics. -/
def extractFrom (source : List Char) : Nat → List Char → ScanResult
  | 0, _ => ScanResult.malformed
  | i + 1, stack =>
    let c := source.getD (i + 1) nulChar
    if c = rbrace ∨ c = rbrack ∨ c = rparen then
      extractFrom source i (c :: stack)
    else if c = lbrace then
      match stack with
      | [] => ScanResult.panicked
      | top :: rest =>
        if top ≠ rbrace then ScanResult.malformed
        else if rest.isEmpty then ScanResult.ok (i + 1)
        else extractFrom source i rest
    else if c = lbrack then
      match stack with
      | [] => ScanResult.panicked
      | top :: rest =>
        if top ≠ rbrack ∧ top ≠ rparen then ScanResult.malformed
        else if rest.isEmpty then ScanResult.ok (i + 1)
        else extractFrom source i rest
    else if c = lparen then
      match stack with
      | [] => ScanResult.panicked
      | top :: rest =>
        if top ≠ rparen ∧ top ≠ rbrack then ScanResult.malformed
        else if rest.isEmpty then ScanResult.ok (i + 1)
        else extractFrom source i rest
    else
      if stack.isEmpty then ScanResult.ok (i + 1)
      else extractFrom source i stack

/-- `extractStatsFromLine` from reconstruct.go: backward scan starting at the
last index with an empty stack. -/
def extractStatsFromLine (source : List Char) : ScanResult :=
  extractFrom source (source.length - 1) []

/-- The running `lastSpaceIndex` of `getStatNameFromSource`: scanning
indices `i, i-1, ..., 1`, the final value is the smallest index holding a
space, or the starting default. -/
def firstSpaceFrom (source : List Char) : Nat → Nat → Nat
  | 0, dflt => dflt
  | i + 1, dflt =>
    firstSpaceFrom source i
      (if source.getD (i + 1) nulChar = spaceChar then i + 1 else dflt)

/-- The loop of `getStatNameFromSource` (reconstruct.go lines 85-90):
accumulates `source[i]` for `i = e, e-1, ..., 1` while tracking
`lastSpaceIndex`. -/
def statNameLoop (source : List Char) : Nat → Nat × List Char → Nat × List Char
  | 0, acc => acc
  | i + 1, acc =>
    statNameLoop source i
      ((if source.getD (i + 1) nulChar = spaceChar then i + 1 else acc.1),
        acc.2 ++ [source.getD (i + 1) nulChar])

/-- `getStatNameFromSource` from reconstruct.go: builds the reversed run of
characters and slices off everything from the last recorded space index on.
The Go byte-slicing coincides with character slicing on the ASCII stat
lines the library produces. -/
def getStatNameFromSource (e : Nat) (source : List Char) : String :=
  if e = 0 then ""
  else
    String.mk (((statNameLoop source e (0, [])).2).take
      ((statNameLoop source e (0, [])).2.length - (statNameLoop source e (0, [])).1))

/-- `isValidStatLine` from reconstruct.go: the first character is a decimal
digit. -/
def isValidStatLine (source : List Char) : Bool :=
  match source with
  | [] => false
  | c :: _ => decide (48 ≤ c.toNat) && decide (c.toNat ≤ 57)

/-- The snapshot codec (`encoding/json` in the source); the spec treats
serialization of snapshots as an external primitive capability, so the
decoder is modelled over an arbitrary codec. -/
structure Codec where
  unmarshal : String → Option Snapshot
  marshal : Snapshot → Option String

/-- Result of `ReconstructStatLine`: either the Go panic propagated from
`extractStatsFromLine`, or the updated `keyToStatsMap` together with the
returned line. -/
inductive RSLResult where
  | panicked : RSLResult
  | ok : List (String × Snapshot) → List Char → RSLResult

/-- `ReconstructStatLine` from reconstruct.go (lines 95-153), over an
arbitrary snapshot codec.  The `keyToStatsMap == nil` early return is not
modelled: the reconstruction pipeline always passes a non-nil map. -/
def ReconstructStatLine (c : Codec) (ktsm : List (String × Snapshot))
    (source : List Char) : RSLResult :=
  if ¬ (isValidStatLine source = true) then RSLResult.ok ktsm source
  else
    match extractStatsFromLine source with
    | ScanResult.panicked => RSLResult.panicked
    | ScanResult.malformed => RSLResult.ok ktsm source
    | ScanResult.ok statStart =>
      if source.getD (statStart - 1) nulChar ≠ spaceChar then RSLResult.ok ktsm source
      else
        match c.unmarshal (String.mk (source.drop statStart)) with
        | none => RSLResult.ok ktsm source
        | some statMap =>
          match lookupA ktsm (getStatNameFromSource (statStart - 2) source) with
          | none =>
            RSLResult.ok
              (updateAssoc ktsm (getStatNameFromSource (statStart - 2) source) statMap)
              source
          | some prevStatMap =>
            match c.marshal (fillForwardMerge prevStatMap statMap) with
            | none =>
              RSLResult.ok
                (updateAssoc ktsm (getStatNameFromSource (statStart - 2) source)
                  (fillForwardMerge prevStatMap statMap))
                source
            | some out =>
              RSLResult.ok
                (updateAssoc ktsm (getStatNameFromSource (statStart - 2) source)
                  (fillForwardMerge prevStatMap statMap))
                (source.take statStart ++ out.data)

def payloadD1 : String := "\x7b\x22k1\x22:10,\x22k2\x22:\x22V2\x22\x7d"

def payloadD2 : String := "\x7b\x22k1\x22:99\x7d"

def mergedPayloadD : String := "\x7b\x22k1\x22:99,\x22k2\x22:\x22V2\x22\x7d"

def snapD1 : Snapshot := [("k1", Value.vint 10), ("k2", Value.vstr "V2")]

def snapD2 : Snapshot := [("k1", Value.vint 99)]

def mergedD : Snapshot := [("k1", Value.vint 99), ("k2", Value.vstr "V2")]

/-- A concrete snapshot codec sufficient for the two-line Scenario D file
(the spec treats snapshot JSON serialization as an external primitive). -/
def codecD : Codec :=
  ⟨fun s =>
      if s = payloadD1 then some snapD1
      else if s = payloadD2 then some snapD2
      else none,
    fun m =>
      match m with
      | [("k1", Value.vint 99), ("k2", Value.vstr "V2")] => some mergedPayloadD
      | _ => none⟩

def lineD1 : List Char := ("0 t " ++ payloadD1).toList

def lineD2 : List Char := ("1 t " ++ payloadD2).toList

/-! ### Writer models: rotation trigger, append, failure ordering -/

/-- `needsRotation` from logstats.go lines 547-549: `lst.sz >= lst.sizeLimit`. -/
def needsRotation (sz sizeLimit : Nat) : Bool :=
  decide (sizeLimit ≤ sz)

/-- State of the plain writer `logStats`, with segment contents: each
segment is the list of byte buffers appended to it (one `f.Write` call per
buffer, so buffers are atomic), `active` is the index-0 segment. -/
structure LState where
  sizeLimit : Nat
  sealed : List (List (List Char))
  active : List (List Char)
  sz : Nat

/-- `logStats.rotateIfNeeded` (logstats.go lines 468-491): when the tracked
size has reached the soft limit, the active segment is sealed and a fresh
empty segment is opened (`openLogFile` reports size 0 for a fresh file; the
`numFiles = 1` uncompressed corner, where index 0 is reopened in place, is
not relied upon by any claim below). -/
def rotateIfNeeded (st : LState) : LState :=
  if needsRotation st.sz st.sizeLimit then
    { st with sealed := st.active :: st.sealed, active := [], sz := 0 }
  else st

/-- `logStats.writeAndCommit` (logstats.go lines 493-507): one append of the
whole buffer to the active segment, then `sz += len(bytes)`. -/
def writeAndCommit (st : LState) (bytes : List Char) : LState :=
  { st with active := st.active ++ [bytes], sz := st.sz + bytes.length }

/-- `logStats.Write` (logstats.go lines 509-528): rotation check strictly
before the append of the already-encoded line. -/
def logStatsWrite (st : LState) (bytes : List Char) : LState :=
  writeAndCommit (rotateIfNeeded st) bytes

/-- State of the deduplicating writer `dedupeLogStats`: the per-type
baseline map `prevStatsMap` plus the embedded `logStats` size tracking. -/
structure DState where
  prevStats : List (String × Snapshot)
  sz : Nat
  sizeLimit : Nat

/-- `dedupeLogStats.Write` (logstats.go lines 649-683) with explicit
failure outcomes: `rotateOk` is whether `rotateIfNeeded`'s filesystem work
succeeds, `appendOk` whether `writeAndCommit` succeeds, and `encLen` the
byte length of the encoded line (timestamp, type and JSON payload are
external).  Returns the new state, the payload appended (`none` when the
call failed before appending), and the error flag.  The body follows the
source order: payload computation (resetting the baseline map when
`needsRotation` holds), then `prevStatsMap[statType] = statMap`, then
`rotateIfNeeded`, then `writeAndCommit`. -/
def dedupeWriteF (encLen : Snapshot → Nat) (rotateOk appendOk : Bool)
    (st : DState) (t : String) (m : Snapshot) : DState × Option Snapshot × Bool :=
  let needRot := needsRotation st.sz st.sizeLimit
  let ps1 := if needRot then [] else st.prevStats
  let payload :=
    if needRot then m
    else
      match lookupA st.prevStats t with
      | none => m
      | some prevMap => populateFilteredMap prevMap m
  let ps2 := updateAssoc ps1 t m
  if needRot then
    if rotateOk then
      if appendOk then
        (⟨ps2, 0 + encLen payload, st.sizeLimit⟩, some payload, false)
      else
        (⟨ps2, 0, st.sizeLimit⟩, none, true)
    else
      (⟨ps2, st.sz, st.sizeLimit⟩, none, true)
  else
    if appendOk then
      (⟨ps2, st.sz + encLen payload, st.sizeLimit⟩, some payload, false)
    else
      (⟨ps2, st.sz, st.sizeLimit⟩, none, true)

mutual

/-- A value of a kind the dedup engine fully supports: scalars and nested
maps of supported values with duplicate-free keys (everything except
`vother`, the unsupported/opaque kind such as the library's `Timestamp`). -/
def dedupableVal : Value → Bool
  | Value.vint _ => true
  | Value.vuint _ => true
  | Value.vbool _ => true
  | Value.vstr _ => true
  | Value.vmap mm => decide (nodupKeys mm) && dedupableEntries mm
  | Value.vother _ => false
termination_by v => sizeOf v
decreasing_by all_goals simp_wf

/-- All values of an entry list are dedup-supported. -/
def dedupableEntries : List (String × Value) → Bool
  | [] => true
  | (_, v) :: r => dedupableVal v && dedupableEntries r
termination_by l => sizeOf l
decreasing_by all_goals simp_wf <;> omega

end

/-! ### Rotation rename cascade (util.go `rotate`)

`rotate` globs the existing numbered segments for the base name, sorts them
(the 2-digit zero-padded `NN` in `<base>.<NN>.log[.gz]` makes lexicographic
order coincide with numeric order for the indices `0..99` the library
produces), and walks them from the highest to the lowest sorted position.
Only the highest segment has its number parsed: it is renamed to `num+1`
when `num+1 < numFiles` and skipped otherwise (left in place, to be
overwritten by its predecessor's rename).  Every other segment at sorted
position `i` is renamed to the name of its successor `all[i+1]`.

The filesystem is modelled as the `Finset Nat` of segment indices that
exist for the base name; `os.Rename src dst` removes the source name and
(over)writes the destination name. -/

/-- The rename pairs produced by the `i < l-1` arm of `rotate`'s loop, in
execution order (highest pair first): each segment is paired with its
immediate successor in the sorted enumeration. -/
def cascadePairs : List Nat → List (Nat × Nat)
  | [] => []
  | [_] => []
  | a :: b :: rest => cascadePairs (b :: rest) ++ [(a, b)]

/-- The full rename plan of `rotate` (util.go lines 101-129) over the
sorted segment list, in execution order: the highest segment is renamed to
its index plus one only when that stays below `numFiles`; every other
segment is renamed to its successor's name. -/
def shiftPlan (all : List Nat) (numFiles : Nat) : List (Nat × Nat) :=
  match all.getLast? with
  | none => []
  | some h => (if h + 1 < numFiles then [(h, h + 1)] else []) ++ cascadePairs all

/-- `os.Rename p.1 p.2` on the set of existing segment indices. -/
def applyRename (names : Finset Nat) (p : Nat × Nat) : Finset Nat :=
  insert p.2 (names.erase p.1)

/-- The rename cascade of one `rotate` call applied to the globbed name
set. -/
def shiftSegs (names : Finset Nat) (numFiles : Nat) : Finset Nat :=
  (shiftPlan (names.sort (· ≤ ·)) numFiles).foldl applyRename names

/-- One uncompressed rotation: the glob sees every numbered segment
(`<base>.*.log`), the cascade runs, and `openLogFile` (re)creates index 0. -/
def rotateU (segs : Finset Nat) (numFiles : Nat) : Finset Nat :=
  insert 0 (shiftSegs segs numFiles)

/-- One compressed rotation: the glob pattern `<base>.*.log.gz` sees only
the sealed gz segments (indices ≥ 1; index 0 is never gz-suffixed), the
cascade runs on those, then `compressFile` writes index 1 afresh from the
plain index-0 file, which is removed and re-opened empty.  The state is the
set of gz indices; the plain index-0 file always exists besides it. -/
def rotateC (gz : Finset Nat) (numFiles : Nat) : Finset Nat :=
  insert 1 (shiftSegs gz numFiles)

/-- The contiguous ascending list `[a, a+1, ..., a+m-1]`. -/
def ascL (a m : Nat) : List Nat :=
  (List.range m).map (a + ·)

/-! ### Properties -/

example : populateFilteredMap [("k1", Value.vint 10)] [("k1", Value.vint 10)] = [] := by
  simp [populateFilteredMap, lookupA, equalInt64]

example : populateFilteredMap [("k1", Value.vint 10)] [("k1", Value.vint 9)] =
    [("k1", Value.vint 9)] := by
  simp [populateFilteredMap, lookupA, equalInt64, equalBool, equalUint64, equalStrings]

/-! ### Association-list lemmas -/

theorem lookupA_append {β : Type} (a b : List (String × β)) (k : String) :
    lookupA (a ++ b) k = (lookupA a k).orElse (fun _ => lookupA b k) := by
  induction a with
  | nil => simp [lookupA]
  | cons hd tl ih =>
    obtain ⟨k0, v0⟩ := hd
    by_cases h : k0 = k <;> simp [lookupA, h, ih]

theorem lookupA_update {β : Type} (l : List (String × β)) (t : String) (v : β) (u : String) :
    lookupA (updateAssoc l t v) u = if t = u then some v else lookupA l u := by
  induction l with
  | nil => simp [updateAssoc, lookupA]
  | cons hd tl ih =>
    obtain ⟨k0, v0⟩ := hd
    by_cases h : k0 = t
    · subst h
      by_cases h2 : k0 = u <;> simp [updateAssoc, lookupA, h2]
    · by_cases h2 : k0 = u
      · subst h2
        simp [updateAssoc, lookupA, h, Ne.symm h]
      · simp [updateAssoc, lookupA, h, h2, ih]

theorem lookupA_eq_none_of_not_mem {β : Type} {l : List (String × β)} {k : String}
    (h : k ∉ l.map Prod.fst) : lookupA l k = none := by
  induction l with
  | nil => rfl
  | cons hd tl ih =>
    obtain ⟨k0, v0⟩ := hd
    simp only [List.map_cons, List.mem_cons] at h
    push_neg at h
    have hne : ¬ k0 = k := fun he => h.1 he.symm
    simp [lookupA, hne, ih h.2]

theorem mem_keys_of_lookupA_eq_some {β : Type} {l : List (String × β)} {k : String} {v : β}
    (h : lookupA l k = some v) : k ∈ l.map Prod.fst := by
  induction l with
  | nil => simp [lookupA] at h
  | cons hd tl ih =>
    obtain ⟨k0, v0⟩ := hd
    by_cases he : k0 = k
    · simp [he]
    · simp [lookupA, he] at h
      simp [ih h]

/-! ### Scalar equality lemmas for the dedup engine -/

theorem eq_of_anyEqual {v p : Value}
    (h : (equalInt64 v p || equalBool v p || equalUint64 v p || equalStrings v p) = true) :
    v = p := by
  cases v <;> cases p <;>
    simp_all [equalInt64, equalBool, equalUint64, equalStrings]

theorem anyEqual_of_eq_scalar {v : Value} (h : isScalar v = true) :
    (equalInt64 v v || equalBool v v || equalUint64 v v || equalStrings v v) = true := by
  cases v <;> simp_all [equalInt64, equalBool, equalUint64, equalStrings, isScalar]

theorem anyEqual_iff_eq_scalar (v p : Value) :
    (equalInt64 v p || equalBool v p || equalUint64 v p || equalStrings v p) = true ↔
      (v = p ∧ isScalar v = true) := by
  constructor
  · intro h
    have he := eq_of_anyEqual h
    subst he
    refine ⟨rfl, ?_⟩
    cases v <;> simp_all [equalInt64, equalBool, equalUint64, equalStrings, isScalar]
  · rintro ⟨he, hs⟩
    subst he
    exact anyEqual_of_eq_scalar hs

theorem anyEqual_false_of_vmap {cm : List (String × Value)} (p : Value) :
    (equalInt64 (Value.vmap cm) p || equalBool (Value.vmap cm) p ||
      equalUint64 (Value.vmap cm) p || equalStrings (Value.vmap cm) p) = false := by
  cases p <;> simp [equalInt64, equalBool, equalUint64, equalStrings]

theorem nodupKeys_cons {k0 : String} {v0 : Value} {rest : Snapshot}
    (h : nodupKeys ((k0, v0) :: rest)) :
    k0 ∉ rest.map Prod.fst ∧ nodupKeys rest := by
  simpa [nodupKeys] using h

/-- Pointwise characterization of `populateFilteredMap`, the dedup delta:
given duplicate-free keys in `curr`, the delta's entry at any key `k` is
determined by the five cases of the algorithm. -/
theorem pfm_lookup_cases (prev : Snapshot) :
    ∀ curr : Snapshot, nodupKeys curr → ∀ k : String,
      (lookupA curr k = none → lookupA (populateFilteredMap prev curr) k = none) ∧
      (∀ v, lookupA curr k = some v → lookupA prev k = none →
        lookupA (populateFilteredMap prev curr) k = some v) ∧
      (∀ v p, lookupA curr k = some v → lookupA prev k = some p →
        (equalInt64 v p || equalBool v p || equalUint64 v p || equalStrings v p) = true →
        lookupA (populateFilteredMap prev curr) k = none) ∧
      (∀ cm pm, lookupA curr k = some (Value.vmap cm) →
        lookupA prev k = some (Value.vmap pm) →
        lookupA (populateFilteredMap prev curr) k =
          (if (populateFilteredMap pm cm).isEmpty then none
           else some (Value.vmap (populateFilteredMap pm cm)))) ∧
      (∀ v p, lookupA curr k = some v → lookupA prev k = some p →
        (equalInt64 v p || equalBool v p || equalUint64 v p || equalStrings v p) = false →
        ((∀ cm, v ≠ Value.vmap cm) ∨ (∀ pm, p ≠ Value.vmap pm)) →
        lookupA (populateFilteredMap prev curr) k = some v) := by
  intro curr
  induction curr with
  | nil =>
    intro _ k
    simp [populateFilteredMap, lookupA]
  | cons hd rest ih =>
    obtain ⟨k0, v0⟩ := hd
    intro hnd k
    obtain ⟨hk0rest, hndrest⟩ := nodupKeys_cons hnd
    have ihk := ih hndrest k
    have ihk0 := ih hndrest k0
    have hrestk0 : lookupA rest k0 = none := lookupA_eq_none_of_not_mem hk0rest
    by_cases hk : k0 = k
    · subst hk
      have hcurr : lookupA ((k0, v0) :: rest) k0 = some v0 := by simp [lookupA]
      cases hprev : lookupA prev k0 with
      | none =>
        have hout : lookupA (populateFilteredMap prev ((k0, v0) :: rest)) k0 = some v0 := by
          rw [populateFilteredMap]
          simp [hprev, lookupA]
        refine ⟨?_, ?_, ?_, ?_, ?_⟩
        · intro h; rw [hcurr] at h; cases h
        · intro v hv _
          rw [hcurr] at hv; cases hv; exact hout
        · intro v p _ hp
          cases hp
        · intro cm pm _ hp
          cases hp
        · intro v p hv hp _ _
          rw [hcurr] at hv; cases hv; exact hout
      | some p0 =>
        cases hA : (equalInt64 v0 p0 || equalBool v0 p0 || equalUint64 v0 p0 ||
            equalStrings v0 p0) with
        | true =>
          have hout : lookupA (populateFilteredMap prev ((k0, v0) :: rest)) k0 = none := by
            rw [populateFilteredMap]
            simp only [hprev, hA, if_true]
            exact (ihk0).1 hrestk0
          refine ⟨?_, ?_, ?_, ?_, ?_⟩
          · intro h; rw [hcurr] at h; cases h
          · intro v hv hp
            cases hp
          · intro v p _ _ _; exact hout
          · intro cm pm hv hp
            rw [hcurr] at hv
            cases hv; cases hp
            rw [anyEqual_false_of_vmap] at hA
            cases hA
          · intro v p hv hp hA2 _
            rw [hcurr] at hv; cases hv
            cases hp
            rw [hA] at hA2; cases hA2
        | false =>
          refine ⟨?_, ?_, ?_, ?_, ?_⟩
          · intro h; rw [hcurr] at h; cases h
          · intro v hv hp
            cases hp
          · intro v p hv hp hA2
            rw [hcurr] at hv; cases hv
            cases hp
            rw [hA] at hA2; cases hA2
          · intro cm pm hv hp
            rw [hcurr] at hv; cases hv
            cases hp
            rw [populateFilteredMap]
            simp only [hprev, hA, Bool.false_eq_true, if_false]
            cases hE : (populateFilteredMap pm cm).isEmpty with
            | true =>
              simp only [hE, if_true]
              exact (ihk0).1 hrestk0
            | false =>
              simp [hE, lookupA]
          · intro v p hv hp _ hshape
            rw [hcurr] at hv; cases hv
            cases hp
            have hdef : populateFilteredMap prev ((k0, v0) :: rest) =
                (k0, v0) :: populateFilteredMap prev rest := by
              rw [populateFilteredMap]
              simp only [hprev, hA, Bool.false_eq_true, if_false]
              rcases hshape with hs | hs
              · cases v0 <;> first | rfl | exact absurd rfl (hs _)
              · cases v0 <;>
                  first
                    | rfl
                    | (cases p0 <;> first | rfl | exact absurd rfl (hs _))
            rw [hdef]
            simp [lookupA]
    · have hcurr : lookupA ((k0, v0) :: rest) k = lookupA rest k := by simp [lookupA, hk]
      have hskip : ∀ X : Snapshot, lookupA ((k0, v0) :: X) k = lookupA X k := by
        intro X; simp [lookupA, hk]
      have hout : lookupA (populateFilteredMap prev ((k0, v0) :: rest)) k =
          lookupA (populateFilteredMap prev rest) k := by
        rw [populateFilteredMap]
        cases hprev : lookupA prev k0 with
        | none => simp [lookupA, hk]
        | some p0 =>
          cases hA : (equalInt64 v0 p0 || equalBool v0 p0 || equalUint64 v0 p0 ||
              equalStrings v0 p0) with
          | true => simp [hA]
          | false =>
            simp only [hA, Bool.false_eq_true, if_false]
            split
            · split <;> simp [lookupA, hk]
            · simp [lookupA, hk]
      rw [hcurr, hout]
      exact ihk

/-- Claim C2: the dedup delta contains exactly: every key of `curr` absent
from `prev`; nothing for a key whose two values are the same primitive type
and equal (the code's `equal*` checks, shown equivalent to scalar equality in
the final conjunct); the recursive delta for two nested maps, the key being
omitted when that delta is empty; `curr`'s value verbatim in every other
case; and never a key absent from `curr`. -/
theorem claim_C2_delta (prev curr : Snapshot) (hc : nodupKeys curr) (k : String) :
    ((lookupA curr k = none → lookupA (populateFilteredMap prev curr) k = none) ∧
      (∀ v, lookupA curr k = some v → lookupA prev k = none →
        lookupA (populateFilteredMap prev curr) k = some v) ∧
      (∀ v p, lookupA curr k = some v → lookupA prev k = some p →
        (equalInt64 v p || equalBool v p || equalUint64 v p || equalStrings v p) = true →
        lookupA (populateFilteredMap prev curr) k = none) ∧
      (∀ cm pm, lookupA curr k = some (Value.vmap cm) →
        lookupA prev k = some (Value.vmap pm) →
        lookupA (populateFilteredMap prev curr) k =
          (if (populateFilteredMap pm cm).isEmpty then none
           else some (Value.vmap (populateFilteredMap pm cm)))) ∧
      (∀ v p, lookupA curr k = some v → lookupA prev k = some p →
        (equalInt64 v p || equalBool v p || equalUint64 v p || equalStrings v p) = false →
        ((∀ cm, v ≠ Value.vmap cm) ∨ (∀ pm, p ≠ Value.vmap pm)) →
        lookupA (populateFilteredMap prev curr) k = some v)) ∧
    (∀ v p : Value,
      (equalInt64 v p || equalBool v p || equalUint64 v p || equalStrings v p) = true ↔
        (v = p ∧ isScalar v = true)) :=
  ⟨pfm_lookup_cases prev curr hc k, fun v p => anyEqual_iff_eq_scalar v p⟩

/-- Concrete instantiation of `claim_C2_delta` at `prev = [("a", 1), ("b", 2)]`,
`curr = [("a", 7)]`, `k = "a"`. -/
theorem claim_C2_delta_witness :
    nodupKeys [("a", Value.vint 7)] ∧
    (((lookupA [("a", Value.vint 7)] "a" = none →
        lookupA (populateFilteredMap [("a", Value.vint 1), ("b", Value.vint 2)]
          [("a", Value.vint 7)]) "a" = none) ∧
      (∀ v, lookupA [("a", Value.vint 7)] "a" = some v →
        lookupA [("a", Value.vint 1), ("b", Value.vint 2)] "a" = none →
        lookupA (populateFilteredMap [("a", Value.vint 1), ("b", Value.vint 2)]
          [("a", Value.vint 7)]) "a" = some v) ∧
      (∀ v p, lookupA [("a", Value.vint 7)] "a" = some v →
        lookupA [("a", Value.vint 1), ("b", Value.vint 2)] "a" = some p →
        (equalInt64 v p || equalBool v p || equalUint64 v p || equalStrings v p) = true →
        lookupA (populateFilteredMap [("a", Value.vint 1), ("b", Value.vint 2)]
          [("a", Value.vint 7)]) "a" = none) ∧
      (∀ cm pm, lookupA [("a", Value.vint 7)] "a" = some (Value.vmap cm) →
        lookupA [("a", Value.vint 1), ("b", Value.vint 2)] "a" = some (Value.vmap pm) →
        lookupA (populateFilteredMap [("a", Value.vint 1), ("b", Value.vint 2)]
          [("a", Value.vint 7)]) "a" =
          (if (populateFilteredMap pm cm).isEmpty then none
           else some (Value.vmap (populateFilteredMap pm cm)))) ∧
      (∀ v p, lookupA [("a", Value.vint 7)] "a" = some v →
        lookupA [("a", Value.vint 1), ("b", Value.vint 2)] "a" = some p →
        (equalInt64 v p || equalBool v p || equalUint64 v p || equalStrings v p) = false →
        ((∀ cm, v ≠ Value.vmap cm) ∨ (∀ pm, p ≠ Value.vmap pm)) →
        lookupA (populateFilteredMap [("a", Value.vint 1), ("b", Value.vint 2)]
          [("a", Value.vint 7)]) "a" = some v)) ∧
    (∀ v p : Value,
      (equalInt64 v p || equalBool v p || equalUint64 v p || equalStrings v p) = true ↔
        (v = p ∧ isScalar v = true))) :=
  ⟨by decide,
    claim_C2_delta [("a", Value.vint 1), ("b", Value.vint 2)] [("a", Value.vint 7)]
      (by decide) "a"⟩

theorem lookupA_mem {β : Type} {l : List (String × β)} {k : String} {v : β}
    (h : lookupA l k = some v) : (k, v) ∈ l := by
  induction l with
  | nil => simp [lookupA] at h
  | cons hd tl ih =>
    obtain ⟨k0, v0⟩ := hd
    by_cases he : k0 = k
    · subst he
      simp [lookupA] at h
      simp [h]
    · simp [lookupA, he] at h
      simp [ih h]

theorem isScalar_of_lookupA {m : Snapshot} {k : String} {v : Value}
    (hsc : allScalar m = true) (h : lookupA m k = some v) : isScalar v = true := by
  have hmem := lookupA_mem h
  rw [allScalar, List.all_eq_true] at hsc
  exact hsc (k, v) hmem

theorem scalar_ne_vmap {v : Value} (h : isScalar v = true) :
    ∀ cm, v ≠ Value.vmap cm := by
  intro cm he
  subst he
  simp [isScalar] at h

theorem lookupA_filter_missing (pm m : Snapshot) (k : String)
    (h : lookupA m k = none) :
    lookupA (pm.filter fun e => (lookupA m e.1).isNone) k = lookupA pm k := by
  induction pm with
  | nil => rfl
  | cons hd tl ih =>
    obtain ⟨k0, v0⟩ := hd
    by_cases he : k0 = k
    · subst he
      simp [List.filter_cons, h, lookupA]
    · cases hf : (lookupA m k0).isNone <;>
        simp [List.filter_cons, hf, lookupA, he, ih]

theorem lookupA_fillForwardMerge (pm m : Snapshot) (k : String) :
    lookupA (fillForwardMerge pm m) k =
      ((lookupA m k).orElse fun _ => lookupA pm k) := by
  rw [fillForwardMerge, lookupA_append]
  cases hm : lookupA m k with
  | none => simp [lookupA_filter_missing pm m k hm]
  | some v => simp

/-- The dedup delta of a scalar-only snapshot against a scalar-only
baseline, pointwise: omitted exactly when the key has the same value in the
baseline. -/
theorem dedupe_delta_scalar {b m : Snapshot} (hnd : nodupKeys m)
    (hscm : allScalar m = true) (_hscb : allScalar b = true) (k : String) :
    (lookupA m k = none → lookupA (populateFilteredMap b m) k = none) ∧
    (∀ v, lookupA m k = some v → lookupA b k = some v →
      lookupA (populateFilteredMap b m) k = none) ∧
    (∀ v, lookupA m k = some v → lookupA b k = none →
      lookupA (populateFilteredMap b m) k = some v) ∧
    (∀ v p, lookupA m k = some v → lookupA b k = some p → v ≠ p →
      lookupA (populateFilteredMap b m) k = some v) := by
  have hc := pfm_lookup_cases b m hnd k
  refine ⟨hc.1, ?_, fun v hv hb => hc.2.1 v hv hb, ?_⟩
  · intro v hv hb
    have hs := isScalar_of_lookupA hscm hv
    exact hc.2.2.1 v v hv hb (anyEqual_of_eq_scalar hs)
  · intro v p hv hb hne
    have hs := isScalar_of_lookupA hscm hv
    cases hA : (equalInt64 v p || equalBool v p || equalUint64 v p || equalStrings v p) with
    | true => exact absurd (eq_of_anyEqual hA) hne
    | false =>
      exact hc.2.2.2.2 v p hv hb hA (Or.inl (scalar_ne_vmap hs))

theorem dedupe_recon_step {d r : List (String × Snapshot)} {t : String} {m : Snapshot}
    (hInv : dedupReconInv d r)
    (hnr : ∀ b, lookupA d t = some b → ∀ e ∈ b, (lookupA m e.1).isSome = true)
    (hnd : nodupKeys m) (hsc : allScalar m = true) :
    (∀ k, lookupA (reconstructMergeStep r t (dedupeDelta d t m)).2 k = lookupA m k) ∧
    dedupReconInv (updateAssoc d t m) (reconstructMergeStep r t (dedupeDelta d t m)).1 := by
  cases hd : lookupA d t with
  | none =>
    have hr : lookupA r t = none := by
      cases hr : lookupA r t with
      | none => rfl
      | some br =>
        have := ((hInv t).1).mpr (by simp [hr])
        rw [hd] at this
        simp at this
    rw [dedupeDelta, hd]
    rw [reconstructMergeStep, hr]
    refine ⟨fun k => rfl, ?_⟩
    intro u
    constructor
    · rw [lookupA_update, lookupA_update]
      by_cases hu : t = u
      · simp [hu]
      · simp only [hu, if_false]
        exact (hInv u).1
    · intro b br hb hbr
      rw [lookupA_update] at hb hbr
      by_cases hu : t = u
      · rw [if_pos hu] at hb hbr
        cases hb; cases hbr
        exact ⟨fun k => rfl, hnd, hsc⟩
      · rw [if_neg hu] at hb hbr
        exact (hInv u).2 b br hb hbr
  | some b =>
    obtain ⟨br, hr⟩ : ∃ br, lookupA r t = some br := by
      have := ((hInv t).1).mp (by simp [hd])
      cases hrr : lookupA r t with
      | none => rw [hrr] at this; simp at this
      | some br => exact ⟨br, rfl⟩
    obtain ⟨hbr_eq, hndb, hscb⟩ := (hInv t).2 b br hd hr
    have hkey : ∀ k, (lookupA b k).isSome = true → (lookupA m k).isSome = true := by
      intro k hk
      cases hbk : lookupA b k with
      | none => rw [hbk] at hk; simp at hk
      | some p => exact hnr b hd (k, p) (lookupA_mem hbk)
    have hdelta := fun k => dedupe_delta_scalar hnd hsc hscb k
    rw [dedupeDelta, hd]
    rw [reconstructMergeStep, hr]
    have hmerge : ∀ k,
        lookupA (fillForwardMerge br (populateFilteredMap b m)) k = lookupA m k := by
      intro k
      rw [lookupA_fillForwardMerge]
      cases hm : lookupA m k with
      | none =>
        have h1 : lookupA (populateFilteredMap b m) k = none := (hdelta k).1 hm
        have h2 : lookupA b k = none := by
          cases hbk : lookupA b k with
          | none => rfl
          | some p =>
            have := hkey k (by simp [hbk])
            rw [hm] at this
            simp at this
        simp [h1, hbr_eq k, h2]
      | some v =>
        cases hbk : lookupA b k with
        | none =>
          have h1 : lookupA (populateFilteredMap b m) k = some v :=
            (hdelta k).2.2.1 v hm hbk
          simp [h1]
        | some p =>
          by_cases hvp : v = p
          · subst hvp
            have h1 : lookupA (populateFilteredMap b m) k = none :=
              (hdelta k).2.1 v hm hbk
            simp [h1, hbr_eq k, hbk]
          · have h1 : lookupA (populateFilteredMap b m) k = some v :=
              (hdelta k).2.2.2 v p hm hbk hvp
            simp [h1]
    refine ⟨hmerge, ?_⟩
    intro u
    constructor
    · rw [lookupA_update, lookupA_update]
      by_cases hu : t = u
      · simp [hu]
      · simp only [hu, if_false]
        exact (hInv u).1
    · intro b2 br2 hb2 hbr2
      rw [lookupA_update] at hb2 hbr2
      by_cases hu : t = u
      · rw [if_pos hu] at hb2 hbr2
        cases hb2; cases hbr2
        exact ⟨hmerge, hnd, hsc⟩
      · rw [if_neg hu] at hb2 hbr2
        exact (hInv u).2 b2 br2 hb2 hbr2

theorem roundtrip_general :
    ∀ (ws : List (String × Snapshot)) (d r : List (String × Snapshot)),
      dedupReconInv d r → noRemovalB d ws = true → goodWritesB ws = true →
      List.Forall₂ (fun out orig => ∀ k, lookupA out k = lookupA orig k)
        (reconstructSeq r (dedupeEmitSeq d ws)) (ws.map Prod.snd)
  | [], _, _, _, _, _ => by
    simp [dedupeEmitSeq, reconstructSeq]
  | (t, m) :: rest, d, r, hInv, hnr, hgw => by
    rw [noRemovalB, Bool.and_eq_true] at hnr
    rw [goodWritesB, List.all_eq_true] at hgw
    have hgm := hgw (t, m) (by simp)
    rw [Bool.and_eq_true, decide_eq_true_iff] at hgm
    have hnrt : ∀ b, lookupA d t = some b → ∀ e ∈ b, (lookupA m e.1).isSome = true := by
      intro b hb e he
      have h1 := hnr.1
      rw [hb] at h1
      rw [List.all_eq_true] at h1
      exact h1 e he
    have hstep := dedupe_recon_step hInv hnrt hgm.1 hgm.2
    rw [dedupeEmitSeq, reconstructSeq]
    refine List.Forall₂.cons hstep.1 ?_
    exact roundtrip_general rest (updateAssoc d t m)
      (reconstructMergeStep r t (dedupeDelta d t m)).1 hstep.2 hnr.2
      (by rw [goodWritesB, List.all_eq_true]; intro p hp; exact hgw p (by simp [hp]))

/-- Claim C1: for a sequence of scalar-only writes with no rotation and no
key removed between consecutive writes of the same type, replaying the
dedup-encoded records through the reconstruction fill-forward merge yields,
record by record, snapshots pointwise equal to the original inputs. -/
theorem claim_C1_roundtrip (ws : List (String × Snapshot))
    (hnr : noRemovalB [] ws = true) (hgw : goodWritesB ws = true) :
    List.Forall₂ (fun out orig => ∀ k, lookupA out k = lookupA orig k)
      (reconstructSeq [] (dedupeEmitSeq [] ws)) (ws.map Prod.snd) := by
  refine roundtrip_general ws [] [] ?_ hnr hgw
  intro t
  refine ⟨by simp [lookupA], ?_⟩
  intro b br hb _
  cases hb

/-- Concrete instantiation of `claim_C1_roundtrip` on a two-write sequence. -/
theorem claim_C1_roundtrip_witness :
    noRemovalB [] [("t", [("a", Value.vint 1), ("b", Value.vstr "x")]),
        ("t", [("a", Value.vint 2), ("b", Value.vstr "x")])] = true ∧
    goodWritesB [("t", [("a", Value.vint 1), ("b", Value.vstr "x")]),
        ("t", [("a", Value.vint 2), ("b", Value.vstr "x")])] = true ∧
    List.Forall₂ (fun out orig => ∀ k, lookupA out k = lookupA orig k)
      (reconstructSeq [] (dedupeEmitSeq []
        [("t", [("a", Value.vint 1), ("b", Value.vstr "x")]),
         ("t", [("a", Value.vint 2), ("b", Value.vstr "x")])]))
      ([("t", [("a", Value.vint 1), ("b", Value.vstr "x")]),
        ("t", [("a", Value.vint 2), ("b", Value.vstr "x")])].map Prod.snd) :=
  ⟨by decide, by decide,
    claim_C1_roundtrip
      [("t", [("a", Value.vint 1), ("b", Value.vstr "x")]),
       ("t", [("a", Value.vint 2), ("b", Value.vstr "x")])]
      (by decide) (by decide)⟩

example : extractStatsFromLine ("1 t ".toList ++ [lbrace, rbrace]) = ScanResult.ok 4 := by
  rfl

example : getStatNameFromSource 2 ("1 t ".toList ++ [lbrace, rbrace]) = "t" := by rfl

/-- Claim C5 (code bug): on the candidate stat line `"2 t {"` — first
character a digit, last character an opening bracket — the backward scan's
first iteration meets an opener with an empty bracket stack; the Go code
indexes `stack[stackTop]` with `stackTop = -1` and panics at runtime instead
of treating the line as malformed and passing it through.  Decoding is
therefore not total and a bracket format error can crash reconstruction. -/
theorem claim_C5_panic :
    extractStatsFromLine ("2 t ".toList ++ [lbrace]) = ScanResult.panicked ∧
    ReconstructStatLine ⟨fun _ => none, fun _ => none⟩ []
      ("2 t ".toList ++ [lbrace]) = RSLResult.panicked := by
  exact ⟨rfl, rfl⟩

/-- Claim C8 counterexample: on the candidate line `"12 cd ef {}"` the
payload starts at index 9 and the separating space is at index 8, so the
claim predicts the type token `"ef"` (the run between that space and the
previous space at index 5, restored to forward order).  The code instead
returns `"fe dc"`: the reversed run reaching back to the line's first space
at index 2, never re-reversed. -/
theorem claim_C8_counterexample :
    extractStatsFromLine ("12 cd ef ".toList ++ [lbrace, rbrace]) = ScanResult.ok 9 ∧
    getStatNameFromSource 7 ("12 cd ef ".toList ++ [lbrace, rbrace]) = "fe dc" ∧
    "fe dc" ≠ "ef" := by
  refine ⟨rfl, rfl, by decide⟩

theorem statNameLoop_spec (source : List Char) :
    ∀ i : Nat, i < source.length → ∀ ls : Nat, ∀ acc : List Char,
      statNameLoop source i (ls, acc) =
        (firstSpaceFrom source i ls, acc ++ ((source.take (i + 1)).drop 1).reverse) := by
  intro i
  induction i with
  | zero =>
    intro _ ls acc
    have h1 : ((source.take 1).drop 1) = [] := by
      cases source <;> simp
    simp [statNameLoop, firstSpaceFrom, h1]
  | succ n ihn =>
    intro hlt ls acc
    rw [statNameLoop, firstSpaceFrom]
    rw [ihn (Nat.lt_of_succ_lt hlt)]
    refine congrArg _ ?_
    have hget : source.getD (n + 1) nulChar = source[n + 1] := by
      rw [List.getD_eq_getElem?_getD, List.getElem?_eq_getElem hlt]
      rfl
    have htake : source.take (n + 2) = source.take (n + 1) ++ [source[n + 1]] := by
      rw [List.take_succ]
      congr 1
      rw [List.getElem?_eq_getElem hlt]
      rfl
    rw [htake]
    have hlen : 1 ≤ (source.take (n + 1)).length := by
      rw [List.length_take]
      omega
    rw [List.drop_append_of_le_length hlen]
    rw [List.reverse_append]
    simp [List.getElem?_eq_getElem hlt]

theorem firstSpaceFrom_spec (source : List Char) :
    ∀ i : Nat, ∀ dflt : Nat,
      ((∀ j, 1 ≤ j → j ≤ i → source.getD j nulChar ≠ spaceChar) →
        firstSpaceFrom source i dflt = dflt) ∧
      (∀ f, 1 ≤ f → f ≤ i → source.getD f nulChar = spaceChar →
        (∀ j, 1 ≤ j → j < f → source.getD j nulChar ≠ spaceChar) →
        firstSpaceFrom source i dflt = f) := by
  intro i
  induction i with
  | zero =>
    intro dflt
    exact ⟨fun _ => rfl, fun f h1 h2 _ _ => absurd (Nat.le_trans h1 h2) (by omega)⟩
  | succ n ihn =>
    intro dflt
    constructor
    · intro hno
      rw [firstSpaceFrom]
      rw [if_neg (hno (n + 1) (by omega) (by omega))]
      exact (ihn dflt).1 fun j h1 h2 => hno j h1 (by omega)
    · intro f h1 h2 hsp hmin
      rw [firstSpaceFrom]
      rcases Nat.lt_or_ge f (n + 1) with hf | hf
      · exact (ihn _).2 f h1 (by omega) hsp hmin
      · have hfe : f = n + 1 := by omega
        subst hfe
        rw [if_pos hsp]
        exact (ihn _).1 fun j hj1 hj2 => hmin j hj1 (by omega)

/-- Claim C8, amended: the recovered type token is the run of characters
strictly between the line's first space (the smallest space index scanned;
or index 1 when no space precedes — index 0 is never collected) and the
separating space, kept in backward (reversed) order, not restored to
forward order. -/
theorem claim_C8_amended (source : List Char) (e f : Nat)
    (he : e < source.length)
    (hf : (f = 0 ∧ ∀ j, 1 ≤ j → j ≤ e → source.getD j nulChar ≠ spaceChar) ∨
      (1 ≤ f ∧ f ≤ e ∧ source.getD f nulChar = spaceChar ∧
        ∀ j, 1 ≤ j → j < f → source.getD j nulChar ≠ spaceChar)) :
    getStatNameFromSource e source =
      String.mk (((source.drop (f + 1)).take (e - f)).reverse) := by
  have hfs : firstSpaceFrom source e 0 = f := by
    rcases hf with ⟨hf0, hno⟩ | ⟨h1, h2, hsp, hmin⟩
    · rw [hf0]
      exact (firstSpaceFrom_spec source e 0).1 hno
    · exact (firstSpaceFrom_spec source e 0).2 f h1 h2 hsp hmin
  have hfe : f ≤ e := by
    rcases hf with ⟨hf0, _⟩ | ⟨_, h2, _, _⟩
    · omega
    · exact h2
  cases e with
  | zero =>
    have hf0 : f = 0 := by omega
    subst hf0
    simp [getStatNameFromSource]
  | succ n =>
    rw [getStatNameFromSource, if_neg (Nat.succ_ne_zero n)]
    rw [statNameLoop_spec source (n + 1) he 0 []]
    rw [hfs]
    simp only [List.nil_append]
    have hlen : ((source.take (n + 2)).drop 1).length = n + 1 := by
      rw [List.length_drop, List.length_take]
      omega
    rw [List.take_reverse]
    have hc : ((source.take (n + 2)).drop 1).length -
        (((source.take (n + 2)).drop 1).reverse.length - f) = f := by
      simp only [List.length_reverse, hlen]
      omega
    rw [hc]
    refine congrArg String.mk ?_
    rw [List.drop_drop, List.drop_take]
    have h1 : 1 + f = f + 1 := Nat.add_comm 1 f
    rw [h1]
    have h2 : (n + 2) - (f + 1) = n + 1 - f := by omega
    rw [h2]

/-- Concrete instantiation of `claim_C8_amended` on the line
`"12 cd ef {}"` with `e = 7` and first space index `f = 2`. -/
theorem claim_C8_amended_witness :
    7 < ("12 cd ef ".toList ++ [lbrace, rbrace]).length ∧
    getStatNameFromSource 7 ("12 cd ef ".toList ++ [lbrace, rbrace]) =
      String.mk (((("12 cd ef ".toList ++ [lbrace, rbrace]).drop 3).take 5).reverse) :=
  ⟨by decide,
    claim_C8_amended ("12 cd ef ".toList ++ [lbrace, rbrace]) 7 2 (by decide)
      (Or.inr ⟨by decide, by decide, by decide,
        by intro j h1 h2; interval_cases j; decide⟩)⟩

/-- Claim C4: for a well-formed stat line whose type already has a stored
baseline, the reconstructed line is the original prefix up through the
separating space, verbatim, followed by the re-serialized merge; the merge
is the decoded snapshot with every key present only in the baseline copied
from the baseline (pointwise `orElse`), and it becomes the new stored
baseline for that type. -/
theorem claim_C4_reconstruct (c : Codec) (ktsm : List (String × Snapshot))
    (source : List Char) (statStart : Nat) (statMap prevStatMap : Snapshot) (out : String)
    (h1 : isValidStatLine source = true)
    (h2 : extractStatsFromLine source = ScanResult.ok statStart)
    (h3 : source.getD (statStart - 1) nulChar = spaceChar)
    (h4 : c.unmarshal (String.mk (source.drop statStart)) = some statMap)
    (h5 : lookupA ktsm (getStatNameFromSource (statStart - 2) source) = some prevStatMap)
    (h6 : c.marshal (fillForwardMerge prevStatMap statMap) = some out) :
    ReconstructStatLine c ktsm source =
      RSLResult.ok
        (updateAssoc ktsm (getStatNameFromSource (statStart - 2) source)
          (fillForwardMerge prevStatMap statMap))
        (source.take statStart ++ out.data) ∧
    (∀ k, lookupA (fillForwardMerge prevStatMap statMap) k =
      ((lookupA statMap k).orElse fun _ => lookupA prevStatMap k)) := by
  refine ⟨?_, fun k => lookupA_fillForwardMerge prevStatMap statMap k⟩
  have h3n : source[statStart - 1]?.getD nulChar = spaceChar := by
    simpa using h3
  rw [ReconstructStatLine]
  simp [h1, h2, h3n, h4, h5, h6]

/-- Scenario D as a concrete instantiation of `claim_C4_reconstruct`:
replaying the two-line file whose payloads are `{"k1":10,"k2":"V2"}` and
`{"k1":99}` stores the first snapshot as baseline and reconstructs the
second line to `1 t {"k1":99,"k2":"V2"}`. -/
theorem claim_C4_reconstruct_witness :
    ReconstructStatLine codecD [] lineD1 = RSLResult.ok [("t", snapD1)] lineD1 ∧
    fillForwardMerge snapD1 snapD2 = mergedD ∧
    String.mk (lineD2.take 4 ++ mergedPayloadD.data) = "1 t " ++ mergedPayloadD ∧
    isValidStatLine lineD2 = true ∧
    extractStatsFromLine lineD2 = ScanResult.ok 4 ∧
    lineD2.getD (4 - 1) nulChar = spaceChar ∧
    codecD.unmarshal (String.mk (lineD2.drop 4)) = some snapD2 ∧
    lookupA [("t", snapD1)] (getStatNameFromSource (4 - 2) lineD2) = some snapD1 ∧
    codecD.marshal (fillForwardMerge snapD1 snapD2) = some mergedPayloadD ∧
    (ReconstructStatLine codecD [("t", snapD1)] lineD2 =
      RSLResult.ok
        (updateAssoc [("t", snapD1)] (getStatNameFromSource (4 - 2) lineD2)
          (fillForwardMerge snapD1 snapD2))
        (lineD2.take 4 ++ mergedPayloadD.data) ∧
      (∀ k, lookupA (fillForwardMerge snapD1 snapD2) k =
        ((lookupA snapD2 k).orElse fun _ => lookupA snapD1 k))) :=
  ⟨rfl, rfl, rfl, rfl, rfl, rfl, rfl, rfl, rfl,
    claim_C4_reconstruct codecD [("t", snapD1)] lineD2 4 snapD2 snapD1 mergedPayloadD
      rfl rfl rfl rfl rfl rfl⟩

/-- Claim C9: an encoded line larger than the soft limit is still written
whole, as a single buffer, into the single (possibly just-opened) active
segment; rotation is decided before the append, firing exactly when the
tracked size has reached the soft limit; sealed segments are untouched by
the append; and the resulting active-segment size exceeds the limit. -/
theorem claim_C9_oversized_write (st : LState) (bytes : List Char)
    (hbig : st.sizeLimit < bytes.length) :
    (logStatsWrite st bytes).active = (rotateIfNeeded st).active ++ [bytes] ∧
    (logStatsWrite st bytes).sealed = (rotateIfNeeded st).sealed ∧
    (needsRotation st.sz st.sizeLimit = decide (st.sizeLimit ≤ st.sz)) ∧
    ((rotateIfNeeded st).active =
      (if st.sizeLimit ≤ st.sz then [] else st.active)) ∧
    st.sizeLimit < (logStatsWrite st bytes).sz := by
  refine ⟨rfl, rfl, rfl, ?_, ?_⟩
  · rw [rotateIfNeeded, needsRotation]
    by_cases h : st.sizeLimit ≤ st.sz <;> simp [h]
  · rw [logStatsWrite, writeAndCommit]
    simp only
    omega

/-- Concrete instantiation of `claim_C9_oversized_write`: limit 5, one
10-byte line. -/
theorem claim_C9_oversized_write_witness :
    (5 < ("0123456789".toList).length) ∧
    ((logStatsWrite ⟨5, [], [], 0⟩ ("0123456789".toList)).active =
        (rotateIfNeeded ⟨5, [], [], 0⟩).active ++ ["0123456789".toList] ∧
      (logStatsWrite ⟨5, [], [], 0⟩ ("0123456789".toList)).sealed =
        (rotateIfNeeded ⟨5, [], [], 0⟩).sealed ∧
      (needsRotation 0 5 = decide (5 ≤ 0)) ∧
      ((rotateIfNeeded ⟨5, [], [], 0⟩).active = (if 5 ≤ 0 then [] else [])) ∧
      5 < (logStatsWrite ⟨5, [], [], 0⟩ ("0123456789".toList)).sz) :=
  ⟨by decide, claim_C9_oversized_write ⟨5, [], [], 0⟩ ("0123456789".toList) (by decide)⟩

/-- Claim C7: the first write of a type since construction (no baseline
entry), and a write that triggers rotation (which resets the baseline map),
append the full input snapshot — no key omitted — and store it as the new
baseline. -/
theorem claim_C7_first_write_full (encLen : Snapshot → Nat) (st : DState)
    (t : String) (m : Snapshot)
    (h : lookupA st.prevStats t = none ∨ st.sizeLimit ≤ st.sz) :
    (dedupeWriteF encLen true true st t m).2.1 = some m ∧
    lookupA (dedupeWriteF encLen true true st t m).1.prevStats t = some m := by
  rw [dedupeWriteF]
  simp only [needsRotation]
  by_cases hsz : st.sizeLimit ≤ st.sz
  · simp [hsz, lookupA_update]
  · have hlk : lookupA st.prevStats t = none := by
      rcases h with h | h
      · exact h
      · exact absurd h hsz
    simp [hsz, hlk, lookupA_update]

/-- Concrete instantiation of `claim_C7_first_write_full`: a fresh writer,
first write of type `"a"`. -/
theorem claim_C7_first_write_full_witness :
    (lookupA (⟨[], 0, 100⟩ : DState).prevStats "a" = none ∨ (100 : Nat) ≤ 0) ∧
    ((dedupeWriteF (fun _ => 7) true true ⟨[], 0, 100⟩ "a"
        [("k", Value.vint 1)]).2.1 = some [("k", Value.vint 1)] ∧
      lookupA (dedupeWriteF (fun _ => 7) true true ⟨[], 0, 100⟩ "a"
        [("k", Value.vint 1)]).1.prevStats "a" = some [("k", Value.vint 1)]) :=
  ⟨Or.inl rfl,
    claim_C7_first_write_full (fun _ => 7) ⟨[], 0, 100⟩ "a" [("k", Value.vint 1)]
      (Or.inl rfl)⟩

theorem lookupA_self_of_nodup {mm : Snapshot} (hnd : nodupKeys mm) :
    ∀ e ∈ mm, lookupA mm e.1 = some e.2 := by
  induction mm with
  | nil => intro e he; cases he
  | cons hd rest ih =>
    obtain ⟨k0, v0⟩ := hd
    obtain ⟨hk0, hndr⟩ := nodupKeys_cons hnd
    intro e he
    rcases List.mem_cons.mp he with he | he
    · subst he
      simp [lookupA]
    · have hne : ¬ k0 = e.1 := by
        intro hcontra
        exact hk0 (hcontra ▸ List.mem_map_of_mem Prod.fst he)
      rw [lookupA]
      rw [if_neg hne]
      exact ih hndr e he

theorem pfm_self_aux :
    ∀ (n : Nat) (curr m : Snapshot), sizeOf curr ≤ n →
      (∀ e ∈ curr, lookupA m e.1 = some e.2) →
      dedupableEntries curr = true →
      populateFilteredMap m curr = [] := by
  intro n
  induction n with
  | zero =>
    intro curr m hsz _ _
    cases curr with
    | nil => simp [populateFilteredMap]
    | cons hd tl =>
      simp at hsz
  | succ n ihn =>
    intro curr m hsz hself hded
    cases curr with
    | nil => simp [populateFilteredMap]
    | cons hd rest =>
      obtain ⟨k, v⟩ := hd
      rw [dedupableEntries, Bool.and_eq_true] at hded
      have hszr : sizeOf rest ≤ n := by
        simp at hsz
        omega
      have hrest : populateFilteredMap m rest = [] :=
        ihn rest m hszr (fun e he => hself e (List.mem_cons_of_mem _ he)) hded.2
      have hk : lookupA m k = some v := hself (k, v) (by simp)
      rw [populateFilteredMap, hk]
      cases v with
      | vint a => simp [equalInt64, hrest]
      | vuint a => simp [equalInt64, equalBool, equalUint64, hrest]
      | vbool a => simp [equalInt64, equalBool, hrest]
      | vstr a => simp [equalInt64, equalBool, equalUint64, equalStrings, hrest]
      | vother a => simp [dedupableVal] at hded
      | vmap mm =>
        have hd1 := hded.1
        rw [dedupableVal, Bool.and_eq_true, decide_eq_true_iff] at hd1
        have hszm : sizeOf mm ≤ n := by
          simp at hsz
          omega
        have hmm : populateFilteredMap mm mm = [] :=
          ihn mm mm hszm (lookupA_self_of_nodup hd1.1) hd1.2
        simp [equalInt64, equalBool, equalUint64, equalStrings, hmm, hrest]

/-- The dedup delta of a snapshot against itself is empty, as long as every
value is of a supported kind and keys are duplicate-free at every level. -/
theorem pfm_self_empty (curr m : Snapshot)
    (hself : ∀ e ∈ curr, lookupA m e.1 = some e.2)
    (hded : dedupableEntries curr = true) :
    populateFilteredMap m curr = [] :=
  pfm_self_aux (sizeOf curr) curr m (Nat.le_refl _) hself hded

/-- Claim C10 counterexample: when the first `Write` fails in rotation
(threshold reached, `rotateOk = false`), the baseline already holds the
unpersisted snapshot, but an immediately retried write of the same snapshot
does not emit an empty delta: `needsRotation` still holds, the retry resets
the baseline map and emits the full snapshot `[("k", 1)]`. -/
theorem claim_C10_counterexample :
    (dedupeWriteF (fun _ => 5) false true ⟨[], 10, 5⟩ "a" [("k", Value.vint 1)]).2.2 =
      true ∧
    lookupA (dedupeWriteF (fun _ => 5) false true ⟨[], 10, 5⟩ "a"
      [("k", Value.vint 1)]).1.prevStats "a" = some [("k", Value.vint 1)] ∧
    (dedupeWriteF (fun _ => 5) true true
      (dedupeWriteF (fun _ => 5) false true ⟨[], 10, 5⟩ "a" [("k", Value.vint 1)]).1
      "a" [("k", Value.vint 1)]).2.1 = some [("k", Value.vint 1)] ∧
    some [("k", Value.vint 1)] ≠ some ([] : Snapshot) := by
  refine ⟨rfl, rfl, rfl, by simp⟩

/-- Claim C10, amended: the baseline is replaced with the input snapshot
before rotation and append are attempted, regardless of success — the
operation is not atomic with respect to the baseline on error.  When the
failure is the file append (threshold not reached) and the snapshot holds
only supported values with duplicate-free keys, an immediately retried
write of the same snapshot emits an empty delta.  When the failure is
rotation, the threshold is still reached on retry, so the retry resets the
baseline map and emits the full snapshot instead. -/
theorem claim_C10_amended (encLen : Snapshot → Nat) (st : DState) (t : String)
    (m : Snapshot) (hnd : nodupKeys m) (hded : dedupableEntries m = true)
    (hsz : ¬ (st.sizeLimit ≤ st.sz)) :
    (∀ rok aok : Bool,
      lookupA (dedupeWriteF encLen rok aok st t m).1.prevStats t = some m) ∧
    (dedupeWriteF encLen true false st t m).2.2 = true ∧
    (dedupeWriteF encLen true false st t m).1.sz = st.sz ∧
    (∀ rok : Bool,
      (dedupeWriteF encLen rok true (dedupeWriteF encLen true false st t m).1 t m).2.1 =
        some []) ∧
    (∀ st2 : DState, st2.sizeLimit ≤ st2.sz →
      (dedupeWriteF encLen false true st2 t m).2.2 = true ∧
      (dedupeWriteF encLen true true
        (dedupeWriteF encLen false true st2 t m).1 t m).2.1 = some m) := by
  have hself : populateFilteredMap m m = [] :=
    pfm_self_empty m m (lookupA_self_of_nodup hnd) hded
  refine ⟨?_, ?_, ?_, ?_, ?_⟩
  · intro rok aok
    rw [dedupeWriteF]
    simp only [needsRotation]
    by_cases h : st.sizeLimit ≤ st.sz <;>
      cases rok <;> cases aok <;> simp [h, lookupA_update]
  · rw [dedupeWriteF]
    simp [needsRotation, hsz]
  · rw [dedupeWriteF]
    simp [needsRotation, hsz]
  · intro rok
    rw [dedupeWriteF, dedupeWriteF]
    simp [needsRotation, hsz, lookupA_update, hself]
  · intro st2 hsz2
    constructor
    · rw [dedupeWriteF]
      simp [needsRotation, hsz2]
    · rw [dedupeWriteF, dedupeWriteF]
      simp [needsRotation, hsz2]

/-- Concrete instantiation of `claim_C10_amended`: fresh writer below the
threshold, append failure on the first write, retry emits the empty delta. -/
theorem claim_C10_amended_witness :
    nodupKeys [("k", Value.vint 1)] ∧
    dedupableEntries [("k", Value.vint 1)] = true ∧
    ¬ ((100 : Nat) ≤ 0) ∧
    ((∀ rok aok : Bool,
      lookupA (dedupeWriteF (fun _ => 7) rok aok ⟨[], 0, 100⟩ "a"
        [("k", Value.vint 1)]).1.prevStats "a" = some [("k", Value.vint 1)]) ∧
    (dedupeWriteF (fun _ => 7) true false ⟨[], 0, 100⟩ "a"
      [("k", Value.vint 1)]).2.2 = true ∧
    (dedupeWriteF (fun _ => 7) true false ⟨[], 0, 100⟩ "a"
      [("k", Value.vint 1)]).1.sz = (⟨[], 0, 100⟩ : DState).sz ∧
    (∀ rok : Bool,
      (dedupeWriteF (fun _ => 7) rok true
        (dedupeWriteF (fun _ => 7) true false ⟨[], 0, 100⟩ "a"
          [("k", Value.vint 1)]).1 "a" [("k", Value.vint 1)]).2.1 = some []) ∧
    (∀ st2 : DState, st2.sizeLimit ≤ st2.sz →
      (dedupeWriteF (fun _ => 7) false true st2 "a" [("k", Value.vint 1)]).2.2 = true ∧
      (dedupeWriteF (fun _ => 7) true true
        (dedupeWriteF (fun _ => 7) false true st2 "a" [("k", Value.vint 1)]).1 "a"
        [("k", Value.vint 1)]).2.1 = some [("k", Value.vint 1)])) :=
  ⟨by decide, by simp [dedupableEntries, dedupableVal], by decide,
    claim_C10_amended (fun _ => 7) ⟨[], 0, 100⟩ "a" [("k", Value.vint 1)]
      (by decide) (by simp [dedupableEntries, dedupableVal]) (by decide)⟩

theorem ascL_succ (a m : Nat) : ascL a (m + 1) = a :: ascL (a + 1) m := by
  rw [ascL, List.range_succ_eq_map, List.map_cons, List.map_map, ascL]
  congr 1
  exact List.map_congr_left fun i _ => by simp [Function.comp]; omega

theorem ascL_mem {a m x : Nat} : x ∈ ascL a m ↔ (a ≤ x ∧ x < a + m) := by
  rw [ascL]
  simp only [List.mem_map, List.mem_range]
  constructor
  · rintro ⟨i, hi, rfl⟩
    omega
  · rintro ⟨h1, h2⟩
    exact ⟨x - a, by omega, by omega⟩

theorem ascL_sorted_lt (a m : Nat) : List.Sorted (· < ·) (ascL a m) := by
  induction m generalizing a with
  | zero => exact List.sorted_nil
  | succ n ihn =>
    rw [ascL_succ, List.sorted_cons]
    refine ⟨fun b hb => ?_, ihn (a + 1)⟩
    have := ascL_mem.mp hb
    omega

theorem ascL_sorted_le (a m : Nat) : List.Sorted (· ≤ ·) (ascL a m) :=
  (ascL_sorted_lt a m).imp Nat.le_of_lt

theorem ascL_nodup (a m : Nat) : (ascL a m).Nodup :=
  (ascL_sorted_lt a m).imp (fun h => Nat.ne_of_lt h)

theorem ascL_getLast (a m : Nat) : (ascL a (m + 1)).getLast? = some (a + m) := by
  induction m generalizing a with
  | zero => rfl
  | succ n ihn =>
    rw [ascL_succ a (n + 1), ascL_succ (a + 1) n, List.getLast?_cons_cons,
      ← ascL_succ (a + 1) n, ihn (a + 1)]
    congr 1
    omega

/-- A `Finset` whose membership is an interval sorts to the contiguous
list. -/
theorem sort_eq_ascL {s : Finset Nat} {a m : Nat}
    (h : ∀ x, x ∈ s ↔ (a ≤ x ∧ x < a + m)) : s.sort (· ≤ ·) = ascL a m := by
  refine List.eq_of_perm_of_sorted ?_ (Finset.sort_sorted _ s) (ascL_sorted_le a m)
  refine (List.perm_ext_iff_of_nodup (Finset.sort_nodup _ s) (ascL_nodup a m)).mpr ?_
  intro x
  rw [Finset.mem_sort, ascL_mem, h]

/-- Effect of the cascade renames over a contiguous segment run
`[a, a+1, ..., a+m]`: every index is re-created by its predecessor's rename
except the lowest, which only disappears. -/
theorem cascadeFold_mem :
    ∀ (m a : Nat) (S : Finset Nat) (x : Nat), 1 ≤ m →
      (x ∈ (cascadePairs (ascL a (m + 1))).foldl applyRename S ↔
        ((x ∈ S ∧ x ≠ a) ∨ x ∈ ascL (a + 1) m) ) := by
  intro m
  induction m with
  | zero =>
    intro a S x h
    exact absurd h (by omega)
  | succ n ihn =>
    intro a S x _
    cases n with
    | zero =>
      rw [ascL_succ a 1, ascL_succ (a + 1) 0]
      have h0 : ascL (a + 2) 0 = [] := rfl
      rw [h0]
      simp only [cascadePairs, List.nil_append, List.foldl_cons, List.foldl_nil]
      rw [applyRename]
      simp only [Finset.mem_insert, Finset.mem_erase, ascL_mem]
      by_cases hS : x ∈ S <;> simp [hS] <;> omega
    | succ j =>
      rw [ascL_succ a (j + 2), ascL_succ (a + 1) (j + 1)]
      simp only [cascadePairs]
      rw [← ascL_succ (a + 1) (j + 1)]
      rw [List.foldl_append]
      simp only [List.foldl_cons, List.foldl_nil]
      rw [applyRename]
      simp only [Finset.mem_insert, Finset.mem_erase]
      rw [ihn (a + 1) S x (by omega)]
      simp only [ascL_mem]
      by_cases hS : x ∈ S <;> simp [hS] <;> omega

/-- The rename plan over a contiguous run `[a, ..., a+m]`. -/
theorem shiftPlan_ascL (a m N : Nat) :
    shiftPlan (ascL a (m + 1)) N =
      (if a + m + 1 < N then [(a + m, a + m + 1)] else []) ++
        cascadePairs (ascL a (m + 1)) := by
  rw [shiftPlan, ascL_getLast]

/-- One uncompressed rotation on the reachable state `{0, 1, ..., k}`:
everything shifts up by one when the highest index stays below `numFiles`,
otherwise the set is unchanged (the lowest segment overwrites the highest's
name and a fresh index 0 is opened). -/
theorem rotateU_range (k N : Nat) (hkN : k + 1 ≤ N) :
    rotateU (Finset.range (k + 1)) N = Finset.range (min (k + 2) N) := by
  have hsort : (Finset.range (k + 1)).sort (· ≤ ·) = ascL 0 (k + 1) :=
    sort_eq_ascL (by intro x; rw [Finset.mem_range]; omega)
  rw [rotateU, shiftSegs, hsort, shiftPlan_ascL 0 k N]
  by_cases hlt : k + 1 < N
  · rw [if_pos (by omega : 0 + k + 1 < N)]
    cases k with
    | zero =>
      have h1 : ascL 0 1 = [0] := rfl
      rw [h1]
      simp only [cascadePairs, List.append_nil, List.foldl_cons, List.foldl_nil]
      ext x
      rw [applyRename]
      simp only [Finset.mem_insert, Finset.mem_erase, Finset.mem_range]
      omega
    | succ j =>
      simp only [List.cons_append, List.nil_append, List.foldl_cons]
      ext x
      rw [Finset.mem_insert, cascadeFold_mem (j + 1) 0 _ x (by omega)]
      rw [applyRename]
      simp only [Finset.mem_insert, Finset.mem_erase, Finset.mem_range, ascL_mem]
      omega
  · rw [if_neg (by omega : ¬ (0 + k + 1 < N))]
    simp only [List.nil_append]
    cases k with
    | zero =>
      have h1 : ascL 0 1 = [0] := rfl
      rw [h1]
      simp only [cascadePairs, List.foldl_nil]
      ext x
      simp only [Finset.mem_insert, Finset.mem_range]
      omega
    | succ j =>
      ext x
      rw [Finset.mem_insert, cascadeFold_mem (j + 1) 0 _ x (by omega)]
      simp only [Finset.mem_range, ascL_mem]
      omega

/-- One compressed rotation on the empty gz set (the first rotation of a
fresh store): the plain index-0 file is gzipped into index 1. -/
theorem rotateC_empty (N : Nat) : rotateC ∅ N = Finset.Ico 1 2 := by
  rw [rotateC, shiftSegs, Finset.sort_empty]
  have h : shiftPlan [] N = [] := rfl
  rw [h, List.foldl_nil]
  ext x
  simp [Finset.mem_Ico]

/-- One compressed rotation on the reachable gz state `{1, ..., k}` (k ≥ 1):
the sealed segments shift up when allowed, and `compressFile` re-creates
index 1 from the plain index-0 file. -/
theorem rotateC_Ico (k N : Nat) (hk : 1 ≤ k) :
    rotateC (Finset.Ico 1 (k + 1)) N =
      Finset.Ico 1 ((if k + 1 < N then k + 1 else k) + 1) := by
  have hsort : (Finset.Ico 1 (k + 1)).sort (· ≤ ·) = ascL 1 k :=
    sort_eq_ascL (by intro x; rw [Finset.mem_Ico]; omega)
  obtain ⟨j, rfl⟩ : ∃ j, k = j + 1 := ⟨k - 1, by omega⟩
  rw [rotateC, shiftSegs, hsort, shiftPlan_ascL 1 j N]
  by_cases hlt : j + 1 + 1 < N
  · rw [if_pos (by omega : 1 + j + 1 < N), if_pos hlt]
    cases j with
    | zero =>
      have h1 : ascL 1 1 = [1] := rfl
      rw [h1]
      simp only [cascadePairs, List.append_nil, List.foldl_cons, List.foldl_nil]
      ext x
      rw [applyRename]
      simp only [Finset.mem_insert, Finset.mem_erase, Finset.mem_Ico]
      omega
    | succ i =>
      simp only [List.cons_append, List.nil_append, List.foldl_cons]
      ext x
      rw [Finset.mem_insert, cascadeFold_mem (i + 1) 1 _ x (by omega)]
      rw [applyRename]
      simp only [Finset.mem_insert, Finset.mem_erase, Finset.mem_Ico, ascL_mem]
      omega
  · rw [if_neg (by omega : ¬ (1 + j + 1 < N)), if_neg hlt]
    simp only [List.nil_append]
    cases j with
    | zero =>
      have h1 : ascL 1 1 = [1] := rfl
      rw [h1]
      simp only [cascadePairs, List.foldl_nil]
      ext x
      simp only [Finset.mem_insert, Finset.mem_Ico]
      omega
    | succ i =>
      ext x
      rw [Finset.mem_insert, cascadeFold_mem (i + 1) 1 _ x (by omega)]
      simp only [Finset.mem_Ico, ascL_mem]
      omega

/-- Iterated uncompressed rotation from a fresh store keeps the state a
contiguous run `{0, ..., min (n+1) N - 1}`. -/
theorem rotateU_iter (N : Nat) (hN : 1 ≤ N) :
    ∀ n : Nat, (fun s => rotateU s N)^[n] {0} = Finset.range (min (n + 1) N) := by
  intro n
  induction n with
  | zero =>
    rw [Function.iterate_zero_apply]
    ext x
    rw [Finset.mem_singleton, Finset.mem_range]
    omega
  | succ n ihn =>
    rw [Function.iterate_succ_apply', ihn]
    have hj : ∃ j, min (n + 1) N = j + 1 ∧ j + 1 ≤ N := ⟨min (n + 1) N - 1, by omega⟩
    obtain ⟨j, hj1, hj2⟩ := hj
    rw [hj1, rotateU_range j N hj2]
    congr 1
    omega

/-- Iterated compressed rotation from a fresh store keeps the gz state a
contiguous run `{1, ..., min n (max 1 (N-1))}`. -/
theorem rotateC_iter (N : Nat) (hN : 1 ≤ N) :
    ∀ n : Nat,
      (fun s => rotateC s N)^[n] ∅ = Finset.Ico 1 (min n (max 1 (N - 1)) + 1) := by
  intro n
  induction n with
  | zero =>
    rw [Function.iterate_zero_apply]
    ext x
    rw [Finset.mem_Ico]
    constructor
    · intro hx
      exact (Finset.not_mem_empty x hx).elim
    · intro hx
      exfalso
      omega
  | succ n ihn =>
    rw [Function.iterate_succ_apply', ihn]
    by_cases hn : n = 0
    · subst hn
      have he : Finset.Ico 1 (min 0 (max 1 (N - 1)) + 1) = (∅ : Finset Nat) := by
        ext x
        simp [Finset.mem_Ico]
      rw [he, rotateC_empty]
      congr 1
      omega
    · have hc : ∃ c, min n (max 1 (N - 1)) = c ∧ 1 ≤ c := ⟨min n (max 1 (N - 1)), rfl, by omega⟩
      obtain ⟨c, hc1, hc2⟩ := hc
      rw [hc1, rotateC_Ico c N hc2]
      congr 1
      by_cases hlt : c + 1 < N <;> simp [hlt] <;> omega

/-- Claim C3 counterexample: with compression enabled and `numFiles = 1`, a
single rotation of a fresh store leaves two numbered segment files — the
sealed gz segment at index 1 written unconditionally by the compression
step, plus the re-opened plain index 0 — exceeding the configured maximum
of 1. -/
theorem claim_C3_counterexample :
    ((fun s => rotateC s 1)^[1] (∅ : Finset Nat)).card + 1 = 2 ∧ ¬ ((2 : Nat) ≤ 1) := by
  constructor
  · rw [rotateC_iter 1 (by omega) 1, Nat.card_Ico]
    omega
  · omega

/-- Claim C3, amended: starting from a fresh store, after any number of
rotations at most `numFiles` numbered segments exist when compression is
disabled (counting index 0), and also when compression is enabled with
`numFiles ≥ 2` (counting the plain index 0 plus the gz segments); with
compression enabled and `numFiles = 1` the bound is 2 instead.  The highest
segment whose shifted index would reach `numFiles` is not carried forward:
it is left to be overwritten during the shift. -/
theorem claim_C3_amended (N n : Nat) (hN1 : 1 ≤ N) (_hN99 : N ≤ 99) :
    ((fun s => rotateU s N)^[n] {0}).card ≤ N ∧
    ((2 : Nat) ≤ N → ((fun s => rotateC s N)^[n] ∅).card + 1 ≤ N) ∧
    ((fun s => rotateC s 1)^[n] ∅).card + 1 ≤ 2 := by
  refine ⟨?_, ?_, ?_⟩
  · rw [rotateU_iter N hN1 n, Finset.card_range]
    omega
  · intro hN2
    rw [rotateC_iter N hN1 n, Nat.card_Ico]
    omega
  · rw [rotateC_iter 1 (by omega) n, Nat.card_Ico]
    omega

/-- Concrete instantiation of `claim_C3_amended` at `numFiles = 3`, five
rotations. -/
theorem claim_C3_amended_witness :
    (1 : Nat) ≤ 3 ∧ (3 : Nat) ≤ 99 ∧
    (((fun s => rotateU s 3)^[5] {0}).card ≤ 3 ∧
      ((2 : Nat) ≤ 3 → ((fun s => rotateC s 3)^[5] ∅).card + 1 ≤ 3) ∧
      ((fun s => rotateC s 1)^[5] ∅).card + 1 ≤ 2) :=
  ⟨by omega, by omega, claim_C3_amended 3 5 (by omega) (by omega)⟩

/-- Claim C6 counterexample: on the existing (non-contiguous) segment set
`{0, 5}` with `numFiles = 10`, the rotation plan renames segment 0 to index
5 — the previous name of its sorted successor — not to index 1 as the claim
states. -/
theorem claim_C6_counterexample :
    shiftPlan [0, 5] 10 = [(5, 6), (0, 5)] ∧
    (0, 5) ∈ shiftPlan [0, 5] 10 ∧ (0, 1) ∉ shiftPlan [0, 5] 10 :=
  ⟨rfl, by decide, by decide⟩

theorem cascadePairs_ascL (a m : Nat) :
    cascadePairs (ascL a (m + 1)) = (ascL a m).reverse.map (fun i => (i, i + 1)) := by
  induction m generalizing a with
  | zero => rfl
  | succ n ihn =>
    rw [ascL_succ a (n + 1), ascL_succ (a + 1) n]
    simp only [cascadePairs]
    rw [← ascL_succ (a + 1) n, ihn (a + 1), ascL_succ a n, List.reverse_cons,
      List.map_append]
    rfl

theorem cascadePairs_mem_facts :
    ∀ (l : List Nat), List.Sorted (· < ·) l →
      ∀ p ∈ cascadePairs l, p.1 ∈ l ∧ p.2 ∈ l ∧ p.1 < p.2 := by
  intro l
  induction l with
  | nil =>
    intro _ p hp
    simp [cascadePairs] at hp
  | cons a tl ih =>
    cases tl with
    | nil =>
      intro _ p hp
      simp [cascadePairs] at hp
    | cons b rest =>
      intro hs p hp
      rw [cascadePairs] at hp
      obtain ⟨ha, hs2⟩ := List.sorted_cons.mp hs
      rcases List.mem_append.mp hp with hp | hp
      · have hf := ih hs2 p hp
        exact ⟨List.mem_cons_of_mem _ hf.1, List.mem_cons_of_mem _ hf.2.1, hf.2.2⟩
      · have hpe : p = (a, b) := by simpa using hp
        subst hpe
        exact ⟨by simp, by simp, ha b (by simp)⟩

theorem cascadePairs_pairwise :
    ∀ (l : List Nat), List.Sorted (· < ·) l →
      List.Pairwise (fun p q => q.1 < p.2) (cascadePairs l) := by
  intro l
  induction l with
  | nil =>
    intro _
    simp [cascadePairs]
  | cons a tl ih =>
    cases tl with
    | nil =>
      intro _
      simp [cascadePairs]
    | cons b rest =>
      intro hs
      obtain ⟨ha, hs2⟩ := List.sorted_cons.mp hs
      rw [cascadePairs, List.pairwise_append]
      refine ⟨ih hs2, List.pairwise_singleton _ _, ?_⟩
      intro p hp q hq
      have hq2 : q = (a, b) := by simpa using hq
      subst hq2
      have hf := cascadePairs_mem_facts (b :: rest) hs2 p hp
      show a < p.2
      exact ha p.2 hf.2.1

theorem le_getLast_of_sorted :
    ∀ (l : List Nat), List.Sorted (· < ·) l → ∀ h : Nat, l.getLast? = some h →
      ∀ x ∈ l, x ≤ h := by
  intro l
  induction l with
  | nil =>
    intro _ h hl
    cases hl
  | cons a tl ih =>
    cases tl with
    | nil =>
      intro _ h hl x hx
      simp at hl hx
      omega
    | cons b rest =>
      intro hs h hl x hx
      rw [List.getLast?_cons_cons] at hl
      obtain ⟨ha, hs2⟩ := List.sorted_cons.mp hs
      have hbh : b ≤ h := ih hs2 h hl b (by simp)
      rcases List.mem_cons.mp hx with hx | hx
      · subst hx
        have hxb : x < b := ha b (by simp)
        omega
      · exact ih hs2 h hl x hx

/-- Claim C6, amended: on a contiguous segment run `{0, ..., k}` the plan
processes segments from the highest down; only the highest is checked
against `numFiles` — renamed to `k+1` when `k+1 < numFiles` and otherwise
left in place to be overwritten — and every other segment `i` is renamed to
`i+1` (in general, to its sorted successor's previous name).  Processing in
descending order, no rename target equals a later rename's source, for any
strictly sorted segment list. -/
theorem claim_C6_amended (k N : Nat) :
    (shiftPlan (ascL 0 (k + 1)) N =
      (if k + 1 < N then [(k, k + 1)] else []) ++
        (ascL 0 k).reverse.map (fun i => (i, i + 1))) ∧
    (∀ l : List Nat, List.Sorted (· < ·) l →
      List.Pairwise (fun p q => q.1 < p.2) (shiftPlan l N)) := by
  constructor
  · rw [shiftPlan_ascL 0 k N, cascadePairs_ascL 0 k]
    simp [Nat.zero_add]
  · intro l hs
    rw [shiftPlan]
    cases hl : l.getLast? with
    | none => simp
    | some h =>
      rw [List.pairwise_append]
      refine ⟨?_, cascadePairs_pairwise l hs, ?_⟩
      · by_cases hlt : h + 1 < N <;> simp [hlt]
      · intro p hp q hq
        by_cases hlt : h + 1 < N
        · rw [if_pos hlt] at hp
          have hpe : p = (h, h + 1) := by simpa using hp
          subst hpe
          have hf := cascadePairs_mem_facts l hs q hq
          have hq1 := le_getLast_of_sorted l hs h hl q.1 hf.1
          show q.1 < h + 1
          omega
        · rw [if_neg hlt] at hp
          simp at hp

/-- Concrete instantiation of `claim_C6_amended`: the contiguous run
`{0, 1, 2}` with `numFiles = 3` (highest dropped), and collision freedom on
the sorted list `[0, 5]`. -/
theorem claim_C6_amended_witness :
    (shiftPlan (ascL 0 3) 10 =
      (if 2 + 1 < 10 then [(2, 3)] else []) ++
        (ascL 0 2).reverse.map (fun i => (i, i + 1))) ∧
    List.Pairwise (fun p q => q.1 < p.2) (shiftPlan [0, 5] 10) :=
  ⟨(claim_C6_amended 2 10).1, (claim_C6_amended 2 10).2 [0, 5] (by decide)⟩

end Logstats
